import Mathlib

/-!
Verification of the asynchronous batched log-shipping subsystem
(`LokiHandler` in `src/internal/infra/logger/zap.py`) and of the input
sanitizer (`src/pkg/utils/input_validators.py`), by shallow embedding.

Time is measured in milliseconds: the hard-coded five second collection
window of `_process_batch` is the literal 5000 and the one second
`Queue.get` timeout is 1000.
-/

namespace Loki

/-- Result of one `log_queue.get(timeout=1)` call inside `_process_batch`:
`none` models the `queue.Empty` timeout, `some e` a dequeued entry; the
second component is the wall-clock time in milliseconds the call consumed. -/
abbrev GetResult (α : Type) := Option α × Nat

/-- Inner collection loop of `LokiHandler._process_batch`
(`while len(entries) < self.batch_size and (time.time() - start_time) < 5
and not self._shutdown`), driven by a schedule of get results: returns the
closed batch, the elapsed time when the loop stopped, and the part of the
schedule not yet consumed.  A `none` get result is the `queue.Empty`
branch, whose `except: break` ends the collection. -/
def collectLoop {α : Type} (bs : Nat) (sh : Bool) :
    List (GetResult α) → Nat → List α → List α × Nat × List (GetResult α)
  | sched, elapsed, acc =>
    if acc.length < bs ∧ elapsed < 5000 ∧ sh = false then
      match sched with
      | [] => (acc, elapsed, [])
      | (none, d) :: rest => (acc, elapsed + d, rest)
      | (some e, d) :: rest => collectLoop bs sh rest (elapsed + d) (acc ++ [e])
    else (acc, elapsed, sched)

/-- Schedule seen by the dispatch loop when every event is already queued:
each get returns immediately. -/
def instSched {α : Type} (q : List α) : List (GetResult α) :=
  q.map (fun e => (some e, 0))

/-- One iteration of the outer `while not self._shutdown` loop hands the
collected entries to `_send_to_loki` exactly when they are non-empty
(`if entries:`). -/
def roundSubmits {α : Type} (bs : Nat) (sh : Bool) (sched : List (GetResult α)) :
    List (List α) :=
  let r := collectLoop bs sh sched 0 []
  if r.1.isEmpty then [] else [r.1]

/-- Repeated iterations of the dispatch loop while shutdown is never
requested, bounded by fuel; returns the sequence of batches submitted for
delivery. -/
def dispatchRun {α : Type} (bs : Nat) : Nat → List (GetResult α) → List (List α)
  | 0, _ => []
  | fuel + 1, sched =>
    let r := collectLoop bs false sched 0 []
    if r.1.isEmpty then dispatchRun bs fuel r.2.2
    else r.1 :: dispatchRun bs fuel r.2.2

/-- Drain loop of `_flush_remaining_logs`
(`while not self.log_queue.empty(): ... get_nowait()`). -/
def drainQueue {α : Type} : List α → List α
  | [] => []
  | e :: q => e :: drainQueue q

/-- Batches submitted by `_flush_remaining_logs`: all remaining queued
entries as one single batch, sent only when non-empty
(`if remaining_entries:`). -/
def flushSubmits {α : Type} (q : List α) : List (List α) :=
  let r := drainQueue q
  if r.isEmpty then [] else [r]

/-- JSON-like values modelling the Python dicts, lists and strings the
handler builds. -/
inductive JVal where
  | str (s : String)
  | intv (n : Int)
  | arr (elems : List JVal)
  | obj (fields : List (String × JVal))

/-- Python dict assignment `o[k] = v` on a JSON object: replaces the value
under an existing key, otherwise appends the new key at the end (Python
dicts preserve insertion order). -/
def dictSet (o : JVal) (k : String) (v : JVal) : JVal :=
  match o with
  | .obj fs =>
    if fs.any (fun p => p.1 == k) then
      .obj (fs.map (fun p => if p.1 == k then (k, v) else p))
    else
      .obj (fs ++ [(k, v)])
  | x => x

/-- Keys of a JSON object, in order. -/
def jKeys : JVal → List String
  | .obj fs => fs.map Prod.fst
  | _ => []

/-- ASCII fragment of Python `str.lower`. -/
def pyToLower (c : Char) : Char :=
  if 65 ≤ c.toNat ∧ c.toNat ≤ 90 then Char.ofNat (c.toNat + 32) else c

/-- Python `str.lower` applied to a whole string. -/
def pyLowerStr (s : String) : String := ⟨s.data.map pyToLower⟩

/-- Python `int()` on an exact rational: truncation toward zero. -/
def pyInt (q : ℚ) : Int := if 0 ≤ q then ⌊q⌋ else ⌈q⌉

/-- Relevant fields of a `logging.LogRecord`: `name`, `levelname`, the raw
message text `record.getMessage()` returns, and `created` in seconds. -/
structure LogRecord where
  name : String
  levelname : String
  msg : String
  created : ℚ

/-- Message rendering in `_format_log_entry`: `self.format(record)` under
`try`, falling back to `record.getMessage()` when it raises. -/
def formatMessage (fmt : LogRecord → Except String String) (r : LogRecord) : String :=
  match fmt r with
  | .ok m => m
  | .error _ => r.msg

/-- Embedding of `LokiHandler._format_log_entry`. -/
def formatLogEntry (fmt : LogRecord → Except String String) (job : String)
    (r : LogRecord) : JVal :=
  let message := formatMessage fmt r
  let timestampNs := pyInt (r.created * 1000000000)
  .obj
    [("stream", .obj
        [("job", .str job),
         ("application", .str "produto-api"),
         ("level", .str (pyLowerStr r.levelname)),
         ("logger", .str r.name)]),
     ("values", .arr [.arr [.str (toString timestampNs), .str message]])]

/-- Entry actually enqueued by `LokiHandler.emit`: the formatted entry plus
the two bookkeeping keys the metrics path reads
(`entry['_record_level'] = ...`, `entry['_record_logger'] = ...`). -/
def emitEntry (fmt : LogRecord → Except String String) (job : String)
    (r : LogRecord) : JVal :=
  dictSet (dictSet (formatLogEntry fmt job r)
    "_record_level" (.str (pyLowerStr r.levelname)))
    "_record_logger" (.str r.name)

/-- Mutable handler fields touched by the modelled code paths. -/
structure HState where
  shutdownFlag : Bool
  queue : List JVal
  logsSent : Nat
  logsFailed : Nat

/-- Python `queue.Queue(maxsize).put_nowait`: `maxsize = 0` means an
unbounded queue; a full bounded queue raises `queue.Full`. -/
def putNowait (maxsize : Nat) (q : List JVal) (e : JVal) : Except Unit (List JVal) :=
  if maxsize ≠ 0 ∧ maxsize ≤ q.length then .error () else .ok (q ++ [e])

/-- Embedding of `LokiHandler.emit`: formats the record, adds the two
bookkeeping keys, and enqueues with a non-blocking put (the handler queue
is created as `Queue()`, i.e. unbounded); the enclosing `except` branch
only logs to the local sender logger and leaves the state unchanged. -/
def emit (fmt : LogRecord → Except String String) (job : String)
    (s : HState) (r : LogRecord) : HState :=
  match putNowait 0 s.queue (emitEntry fmt job r) with
  | .ok q => { s with queue := q }
  | .error _ => s

/-- Transport-level outcome of the single `requests.post` call inside
`_send_to_loki`. -/
inductive Transport where
  | response (status : Nat)
  | connError
  | timeoutErr
  | serError
  | importError
deriving DecidableEq

/-- Embedding of `LokiHandler._send_to_loki`: first component is the
boolean the method returns, second the number of HTTP POST requests it
issued. -/
def sendToLoki {α : Type} (entries : List α) (t : Transport) : Bool × Nat :=
  if entries.isEmpty then (true, 0)
  else
    match t with
    | .response s => (if s = 200 ∨ s = 204 then true else false, 1)
    | .connError => (false, 1)
    | .timeoutErr => (false, 1)
    | .serError => (false, 0)
    | .importError => (false, 0)

/-- Embedding of `_flush_remaining_logs` acting on the handler state; `ok`
is the delivery outcome of the final batch. -/
def flushRemaining (ok : Bool) (s : HState) : HState :=
  let entries := drainQueue s.queue
  if entries.isEmpty then { s with queue := [] }
  else if ok then { s with queue := [], logsSent := s.logsSent + entries.length }
  else { s with queue := [], logsFailed := s.logsFailed + entries.length }

/-- Embedding of `LokiHandler.shutdown`: the `if self._shutdown: return`
guard, then the flag is set and the worker thread is joined, which ends the
dispatch loop and runs `_flush_remaining_logs`. -/
def shutdown (ok : Bool) (s : HState) : HState :=
  if s.shutdownFlag then s
  else flushRemaining ok { s with shutdownFlag := true }

/-- Proof-side description of chunking a list into groups of `k + 1`. -/
def chunkPos {α : Type} (k : Nat) : List α → List (List α)
  | [] => []
  | e :: q => (e :: q.take k) :: chunkPos k (q.drop k)
  termination_by l => l.length
  decreasing_by simp [List.length_drop]; omega

/-- Get-result schedule of eleven events arriving two seconds apart: in
each round the dispatch loop dequeues one event and then times out once
on the empty queue, although every inter-event gap stays far below the
five second window. -/
def gapSched : List (GetResult Nat) :=
  ((List.range 11).map (fun i =>
    [((some i : Option Nat), if i = 0 then 0 else 1000),
     ((none : Option Nat), 1000)])).flatten

end Loki

namespace Validators

/-- Unicode code points Python `str.strip` and the regex class `\s` treat
as whitespace (ASCII whitespace plus the Unicode space characters). -/
def isPySpace (c : Char) : Bool :=
  decide (c.toNat = 0x20 ∨ (0x09 ≤ c.toNat ∧ c.toNat ≤ 0x0d) ∨
    (0x1c ≤ c.toNat ∧ c.toNat ≤ 0x1f) ∨ c.toNat = 0x85 ∨ c.toNat = 0xa0 ∨
    c.toNat = 0x1680 ∨ (0x2000 ≤ c.toNat ∧ c.toNat ≤ 0x200a) ∨
    c.toNat = 0x2028 ∨ c.toNat = 0x2029 ∨ c.toNat = 0x202f ∨
    c.toNat = 0x205f ∨ c.toNat = 0x3000)

/-- Characters matched by the removal pattern `[\x00-\x1f\x7f-\x9f]`. -/
def isCtrlChar (c : Char) : Bool :=
  decide (c.toNat ≤ 0x1f ∨ (0x7f ≤ c.toNat ∧ c.toNat ≤ 0x9f))

/-- Python `str.strip()`: removes leading and trailing whitespace. -/
def pyStrip (s : List Char) : List Char :=
  ((s.dropWhile isPySpace).reverse.dropWhile isPySpace).reverse

/-- The substitution `re.sub(r'[\x00-\x1f\x7f-\x9f]', '', term)`. -/
def removeCtrl (s : List Char) : List Char :=
  s.filter (fun c => !isCtrlChar c)

/-- Collapses every run of consecutive blanks to a single blank; together
with `mapWs` below this renders `re.sub(r'\s+', ' ', term)`. -/
def squeezeSpaces : List Char → List Char
  | [] => []
  | c :: cs =>
    match cs with
    | [] => [c]
    | c2 :: cs' =>
      if c = ' ' ∧ c2 = ' ' then squeezeSpaces (c2 :: cs')
      else c :: squeezeSpaces (c2 :: cs')

/-- Replaces each whitespace character by a plain blank. -/
def mapWs (s : List Char) : List Char :=
  s.map (fun c => if isPySpace c then ' ' else c)

/-- The substitution `re.sub(r'\s+', ' ', term)`: every maximal run of
whitespace becomes one single blank. -/
def collapseWs (s : List Char) : List Char :=
  squeezeSpaces (mapWs s)

/-- The module-level list `DANGEROUS_CHARS` of `input_validators.py`. -/
def DANGEROUS_CHARS : List (List Char) :=
  [";", "--", "/*", "*/", "xp_", "sp_", "exec", "execute",
   "union", "select", "insert", "update", "delete", "drop",
   "create", "alter", "truncate", "script", "<", ">"].map String.data

/-- Python substring containment `d in s`. -/
def substrIn (d s : List Char) : Bool := decide (d <:+: s)

/-- The loop `for dangerous in DANGEROUS_CHARS: if dangerous in term_lower`. -/
def containsDangerous (s : List Char) : Bool :=
  DANGEROUS_CHARS.any (fun d => substrIn d s)

/-- Embedding of `sanitize_search_term`; `.error` models a raised
`BadRequestError` with the corresponding message. -/
def sanitize_search_term (term : List Char) (maxLength : Nat) :
    Except String (List Char) :=
  if term.isEmpty then .error "Termo de busca invalido"
  else
    let t1 := pyStrip term
    if t1.length < 2 then .error "Termo de busca deve ter pelo menos 2 caracteres"
    else if maxLength < t1.length then .error "Termo de busca muito longo"
    else
      let t2 := removeCtrl t1
      if containsDangerous (t2.map Loki.pyToLower) then
        .error "Termo de busca contem caracteres invalidos"
      else .ok (collapseWs t2)

end Validators

namespace Loki

lemma collectLoop_nil {α : Type} (bs : Nat) (sh : Bool) (el : Nat) (acc : List α) :
    collectLoop bs sh [] el acc = (acc, el, []) := by
  unfold collectLoop
  split <;> rfl

lemma collectLoop_stop {α : Type} (bs : Nat) (sh : Bool)
    (sched : List (GetResult α)) (el : Nat) (acc : List α)
    (h : ¬(acc.length < bs ∧ el < 5000 ∧ sh = false)) :
    collectLoop bs sh sched el acc = (acc, el, sched) := by
  unfold collectLoop
  rw [if_neg h]

lemma collectLoop_cons_none {α : Type} (bs : Nat) (sh : Bool) (d : Nat)
    (rest : List (GetResult α)) (el : Nat) (acc : List α)
    (h : acc.length < bs ∧ el < 5000 ∧ sh = false) :
    collectLoop bs sh ((none, d) :: rest) el acc = (acc, el + d, rest) := by
  unfold collectLoop
  rw [if_pos h]

lemma collectLoop_cons_some {α : Type} (bs : Nat) (sh : Bool) (e : α) (d : Nat)
    (rest : List (GetResult α)) (el : Nat) (acc : List α)
    (h : acc.length < bs ∧ el < 5000 ∧ sh = false) :
    collectLoop bs sh ((some e, d) :: rest) el acc =
      collectLoop bs sh rest (el + d) (acc ++ [e]) := by
  conv_lhs => unfold collectLoop
  rw [if_pos h]

end Loki

namespace Loki

lemma collectLoop_length_le {α : Type} (bs : Nat) (sh : Bool) :
    ∀ (sched : List (GetResult α)) (el : Nat) (acc : List α),
      acc.length ≤ bs → (collectLoop bs sh sched el acc).1.length ≤ bs
  | [], el, acc, hacc => by rw [collectLoop_nil]; exact hacc
  | (none, d) :: rest, el, acc, hacc => by
    by_cases h : acc.length < bs ∧ el < 5000 ∧ sh = false
    · rw [collectLoop_cons_none _ _ _ _ _ _ h]; exact hacc
    · rw [collectLoop_stop _ _ _ _ _ h]; exact hacc
  | (some e, d) :: rest, el, acc, hacc => by
    by_cases h : acc.length < bs ∧ el < 5000 ∧ sh = false
    · rw [collectLoop_cons_some _ _ _ _ _ _ _ h]
      exact collectLoop_length_le bs sh rest (el + d) (acc ++ [e])
        (by simpa using h.1)
    · rw [collectLoop_stop _ _ _ _ _ h]; exact hacc

lemma collectLoop_inst {α : Type} (bs : Nat) :
    ∀ (q : List α) (acc : List α), acc.length ≤ bs →
      collectLoop bs false (instSched q) 0 acc =
        (acc ++ q.take (bs - acc.length), 0, instSched (q.drop (bs - acc.length)))
  | [], acc, hacc => by
    rw [instSched, List.map_nil, collectLoop_nil]
    simp [instSched]
  | e :: q, acc, hacc => by
    simp only [instSched, List.map_cons]
    by_cases h : acc.length < bs
    · rw [collectLoop_cons_some _ _ _ _ _ _ _ ⟨h, by omega, rfl⟩, Nat.add_zero]
      have ih := collectLoop_inst bs q (acc ++ [e]) (by simp; omega)
      simp only [instSched] at ih
      rw [ih]
      have hbs : bs - acc.length = (bs - (acc ++ [e]).length) + 1 := by
        simp; omega
      rw [hbs]
      simp [List.take_succ_cons, List.drop_succ_cons]
    · have hlen : acc.length = bs := by omega
      rw [collectLoop_stop]
      · simp [hlen]
      · simp [hlen]

end Loki

namespace Loki

lemma dispatchRun_zero {α : Type} (bs : Nat) (sched : List (GetResult α)) :
    dispatchRun bs 0 sched = [] := rfl

lemma dispatchRun_empty {α : Type} (bs : Nat) :
    ∀ fuel : Nat, dispatchRun (α := α) bs fuel [] = []
  | 0 => rfl
  | fuel + 1 => by
    rw [dispatchRun, collectLoop_nil]
    simpa using dispatchRun_empty bs fuel

lemma dispatchRun_inst {α : Type} (k : Nat) :
    ∀ (fuel : Nat) (q : List α), q.length ≤ fuel →
      dispatchRun (k + 1) fuel (instSched q) = chunkPos k q
  | 0, q, hq => by
    have hq0 : q = [] := List.eq_nil_of_length_eq_zero (by omega)
    subst hq0
    rw [dispatchRun_zero, chunkPos]
  | fuel + 1, [], _ => by
    simp only [instSched, List.map_nil]
    rw [dispatchRun_empty, chunkPos]
  | fuel + 1, e :: q, hq => by
    rw [dispatchRun, collectLoop_inst (k + 1) (e :: q) [] (by simp)]
    have ht : (k + 1) - ([] : List α).length = k + 1 := by simp
    rw [ht]
    simp only [List.nil_append, List.take_succ_cons, List.drop_succ_cons]
    have hlen : (List.drop k q).length ≤ fuel := by
      rw [List.length_drop]
      have : q.length + 1 ≤ fuel + 1 := by simpa using hq
      omega
    have ih := dispatchRun_inst k fuel (q.drop k) hlen
    simp only [List.isEmpty_cons, Bool.false_eq_true, if_false, ih]
    conv_rhs => rw [chunkPos]

lemma chunkPos_flatten {α : Type} (k : Nat) :
    ∀ q : List α, (chunkPos k q).flatten = q
  | [] => by rw [chunkPos]; rfl
  | e :: q => by
    rw [chunkPos]
    simp only [List.flatten_cons]
    rw [chunkPos_flatten k (q.drop k)]
    simp [List.take_append_drop]
  termination_by q => q.length
  decreasing_by simp [List.length_drop]; omega

lemma chunkPos_mem {α : Type} (k : Nat) :
    ∀ (q : List α) (b : List α), b ∈ chunkPos k q → b ≠ [] ∧ b.length ≤ k + 1
  | [], b, hb => by rw [chunkPos] at hb; simp at hb
  | e :: q, b, hb => by
    rw [chunkPos] at hb
    rcases List.mem_cons.mp hb with h | h
    · subst h
      refine ⟨by simp, ?_⟩
      have := List.length_take_le k q
      simp only [List.length_cons]
      omega
    · exact chunkPos_mem k (q.drop k) b h
  termination_by q => q.length
  decreasing_by simp [List.length_drop]; omega

lemma chunkPos_count {α : Type} (k : Nat) :
    ∀ q : List α, (chunkPos k q).length = (q.length + k) / (k + 1)
  | [] => by
    rw [chunkPos]
    simp only [List.length_nil, Nat.zero_add]
    rw [Nat.div_eq_of_lt (by omega)]
  | e :: q => by
    rw [chunkPos]
    simp only [List.length_cons]
    rw [chunkPos_count k (q.drop k), List.length_drop]
    by_cases h : q.length ≤ k
    · have h1 : q.length - k = 0 := by omega
      rw [h1]
      have h2 : (0 + k) / (k + 1) = 0 := Nat.div_eq_of_lt (by omega)
      have h3 : (q.length + 1 + k) / (k + 1) = 1 :=
        Nat.div_eq_of_lt_le (by omega) (by omega)
      omega
    · have h2 : q.length - k + k = q.length := by omega
      rw [h2]
      have h3 : q.length + 1 + k = q.length + (k + 1) := by omega
      rw [h3, Nat.add_div_right _ (by omega)]
  termination_by q => q.length
  decreasing_by simp [List.length_drop]; omega

end Loki

lemma Loki.flushRemaining_shutdownFlag (ok : Bool) (s : Loki.HState) :
    (Loki.flushRemaining ok s).shutdownFlag = s.shutdownFlag := by
  unfold Loki.flushRemaining
  dsimp only
  repeat' split
  all_goals rfl

/-- C1: for every formatter behaviour (including one that raises), every
job label, every handler state (running, draining or stopped) and every
log record, `LokiHandler.emit` returns normally: it formats the record,
appends the entry to the queue with the non-blocking put on the unbounded
queue and changes nothing else, so no internal failure reaches the caller
and no branch of `emit` can block. -/
theorem emit_never_fails_caller (fmt : Loki.LogRecord → Except String String)
    (job : String) (s : Loki.HState) (r : Loki.LogRecord) :
    Loki.emit fmt job s r =
      { s with queue := s.queue ++ [Loki.emitEntry fmt job r] } := by
  simp [Loki.emit, Loki.putNowait]

/-- C9: the ingestion queue is created as `Queue()` and so has no capacity
bound: for every already-pending queue content the non-blocking put
returns `ok` with the entry appended, the queue-full branch is
unreachable, and `emit` never touches the only two counters of the
handler (`logs_sent`, `logs_failed`), so no event is dropped for capacity
reasons and no drop counter is incremented. -/
theorem queue_unbounded_no_drop :
    (∀ (q : List Loki.JVal) (e : Loki.JVal),
      Loki.putNowait 0 q e = .ok (q ++ [e])) ∧
    (∀ (fmt : Loki.LogRecord → Except String String) (job : String)
        (s : Loki.HState) (r : Loki.LogRecord),
      (Loki.emit fmt job s r).queue = s.queue ++ [Loki.emitEntry fmt job r] ∧
      (Loki.emit fmt job s r).logsSent = s.logsSent ∧
      (Loki.emit fmt job s r).logsFailed = s.logsFailed ∧
      (Loki.emit fmt job s r).shutdownFlag = s.shutdownFlag) := by
  constructor
  · intro q e
    simp [Loki.putNowait]
  · intro fmt job s r
    refine ⟨?_, ?_, ?_, ?_⟩ <;> simp [Loki.emit, Loki.putNowait]

/-- C5 counterexample: in the state where shutdown has already been
requested (`shutdownFlag = true`), a subsequently emitted event is still
appended to the queue: the queue grows from empty to one entry, so the
claim that such events are never added to the queue is false. -/
theorem emit_after_shutdown_counterexample :
    (⟨true, [], 0, 0⟩ : Loki.HState).shutdownFlag = true ∧
    ((Loki.emit (fun _ => Except.ok "m") "job" ⟨true, [], 0, 0⟩
      ⟨"main", "INFO", "hello", 0⟩).queue).length = 1 := by
  constructor
  · rfl
  · simp [Loki.emit, Loki.putNowait]

/-- C5 amended: `emit` never consults the shutdown flag; after shutdown
has been requested every emitted event is still formatted and appended to
the queue exactly as while running (it is delivered only if the final
flush has not yet drained the queue). -/
theorem emit_after_shutdown_enqueues
    (fmt : Loki.LogRecord → Except String String) (job : String)
    (s : Loki.HState) (r : Loki.LogRecord) (_h : s.shutdownFlag = true) :
    (Loki.emit fmt job s r).queue = s.queue ++ [Loki.emitEntry fmt job r] := by
  simp [Loki.emit, Loki.putNowait]

theorem emit_after_shutdown_enqueues_witness :
    (⟨true, [], 1, 2⟩ : Loki.HState).shutdownFlag = true ∧
    (Loki.emit (fun _ => Except.ok "m") "job" ⟨true, [], 1, 2⟩
        ⟨"main", "INFO", "hello", 0⟩).queue =
      ([] : List Loki.JVal) ++
        [Loki.emitEntry (fun _ => Except.ok "m") "job" ⟨"main", "INFO", "hello", 0⟩] :=
  ⟨rfl, emit_after_shutdown_enqueues _ _ _ _ rfl⟩

/-- C8: `shutdown` is idempotent: a second invocation, in whatever state
the first one left the handler, is a no-op stopped by the
`if self._shutdown: return` guard, so the final state and the sent and
failed counters equal those of a single call. -/
theorem shutdown_idempotent (ok1 ok2 : Bool) (s : Loki.HState) :
    Loki.shutdown ok2 (Loki.shutdown ok1 s) = Loki.shutdown ok1 s := by
  by_cases h : s.shutdownFlag
  · simp [Loki.shutdown, h]
  · have h1 : (Loki.shutdown ok1 s).shutdownFlag = true := by
      simp only [Loki.shutdown, h, if_false, Bool.false_eq_true]
      rw [Loki.flushRemaining_shutdownFlag]
    rw [Loki.shutdown, if_pos h1]

/-- C4: one delivery attempt `_send_to_loki` on a non-empty batch issues
at most one HTTP POST (no internal retry) and returns `True` exactly when
the response status is 200 or 204; every other status, connection
failure, timeout, serialization failure or missing library yields
`False`, and being a total function of the transport outcome it
propagates no transport fault to the caller. -/
theorem send_to_loki_outcome {α : Type} (entries : List α) (t : Loki.Transport)
    (h : entries ≠ []) :
    ((Loki.sendToLoki entries t).1 = true ↔
      t = .response 200 ∨ t = .response 204) ∧
    (Loki.sendToLoki entries t).2 ≤ 1 := by
  have he : entries.isEmpty = false := by
    cases entries with
    | nil => exact absurd rfl h
    | cons a l => rfl
  cases t with
  | response status =>
    constructor
    · simp only [Loki.sendToLoki, he, Bool.false_eq_true, if_false]
      by_cases hs : status = 200 ∨ status = 204
      · simp only [hs, if_true, true_iff]
        rcases hs with hs | hs <;> simp [hs]
      · simp [hs]
    · simp [Loki.sendToLoki, he]
  | connError => simp [Loki.sendToLoki, he]
  | timeoutErr => simp [Loki.sendToLoki, he]
  | serError => simp [Loki.sendToLoki, he]
  | importError => simp [Loki.sendToLoki, he]

theorem send_to_loki_outcome_witness :
    (([7] : List Nat) ≠ []) ∧
    (((Loki.sendToLoki ([7] : List Nat) (.response 500)).1 = true ↔
      (.response 500 : Loki.Transport) = .response 200 ∨
        (.response 500 : Loki.Transport) = .response 204) ∧
    (Loki.sendToLoki ([7] : List Nat) (.response 500)).2 ≤ 1) :=
  ⟨by decide, send_to_loki_outcome [7] (.response 500) (by decide)⟩

/-- C7 amended: the entry enqueued for delivery carries the stream label
set `{job, application, level, logger}` and a single
`[timestamp-in-nanoseconds-as-string, message]` pair, plus the two
bookkeeping fields `_record_level` and `_record_logger` that `emit` adds
for the metrics path and that are shipped with the payload; when message
rendering raises, the message falls back to the record's raw message
text. -/
theorem emit_entry_shape (fmt : Loki.LogRecord → Except String String)
    (job : String) (r : Loki.LogRecord) :
    Loki.emitEntry fmt job r =
      .obj
        [("stream", .obj
            [("job", .str job),
             ("application", .str "produto-api"),
             ("level", .str (Loki.pyLowerStr r.levelname)),
             ("logger", .str r.name)]),
         ("values", .arr [.arr
            [.str (toString (Loki.pyInt (r.created * 1000000000))),
             .str (Loki.formatMessage fmt r)]]),
         ("_record_level", .str (Loki.pyLowerStr r.levelname)),
         ("_record_logger", .str r.name)] ∧
    (∀ e, fmt r = .error e → Loki.formatMessage fmt r = r.msg) := by
  constructor
  · rfl
  · intro e he
    simp [Loki.formatMessage, he]

theorem emit_entry_shape_witness :
    ((fun _ : Loki.LogRecord => (Except.error "boom" : Except String String))
        ⟨"main", "INFO", "raw text", 0⟩ = Except.error "boom") ∧
    Loki.formatMessage (fun _ => Except.error "boom")
      ⟨"main", "INFO", "raw text", 0⟩ = "raw text" :=
  ⟨rfl,
    (emit_entry_shape (fun _ => Except.error "boom") "j"
      ⟨"main", "INFO", "raw text", 0⟩).2 "boom" rfl⟩

/-- C7 counterexample: the shipped entry does not consist exactly of the
`stream` and `values` fields: the entry `emit` enqueues (and which
`_send_to_loki` posts inside `{"streams": entries}`) also carries the
`_record_level` and `_record_logger` keys. -/
theorem emit_entry_extra_keys :
    Loki.jKeys (Loki.emitEntry (fun _ => Except.ok "m") "j"
        ⟨"main", "INFO", "hello", 0⟩) =
      ["stream", "values", "_record_level", "_record_logger"] ∧
    (["stream", "values", "_record_level", "_record_logger"] : List String) ≠
      ["stream", "values"] := by
  constructor
  · rfl
  · decide

/-- C2 amended: the dispatch loop closes and submits the pending batch
when the batch reaches `batch_size` entries, when five seconds have
elapsed since the collection round started, when a one second queue wait
finds no entry, or when shutdown is requested — whichever happens first;
in particular a non-full batch is submitted as soon as the queue stays
empty through the one second poll, before `maxWaitDuration` has elapsed
since its first entry. -/
theorem batch_close_conditions {α : Type} (bs : Nat) (sh : Bool) :
    (∀ sched : List (Loki.GetResult α),
      (Loki.collectLoop bs sh sched 0 []).1.length ≤ bs) ∧
    (∀ q : List α,
      (Loki.collectLoop bs false (Loki.instSched q) 0 []).1 = q.take bs) ∧
    (∀ (e : α) (d : Nat) (rest : List (Loki.GetResult α)), 1 < bs →
      Loki.collectLoop bs false ((some e, 0) :: (none, d) :: rest) 0 [] =
        ([e], d, rest)) ∧
    (∀ (sched : List (Loki.GetResult α)) (el : Nat) (acc : List α),
      sh = true ∨ 5000 ≤ el →
      Loki.collectLoop bs sh sched el acc = (acc, el, sched)) := by
  refine ⟨?_, ?_, ?_, ?_⟩
  · intro sched
    exact Loki.collectLoop_length_le bs sh sched 0 [] (by simp)
  · intro q
    rw [Loki.collectLoop_inst bs q [] (by simp)]
    simp
  · intro e d rest hbs
    rw [Loki.collectLoop_cons_some _ _ _ _ _ _ _ ⟨by simp; omega, by omega, rfl⟩]
    rw [Loki.collectLoop_cons_none _ _ _ _ _ _ ⟨by simpa using hbs, by omega, rfl⟩]
    simp
  · intro sched el acc h
    apply Loki.collectLoop_stop
    rcases h with h | h
    · simp [h]
    · intro hc
      omega

theorem batch_close_conditions_witness :
    ((Loki.collectLoop 10 false (Loki.instSched [1, 2, 3]) 0 ([] : List Nat)).1.length ≤ 10) ∧
    ((Loki.collectLoop 10 false (Loki.instSched [1, 2, 3]) 0 []).1 = [1, 2, 3].take 10) ∧
    (Loki.collectLoop 10 false [((some 1 : Option Nat), 0), (none, 1000)] 0 [] =
      ([1], 1000, [])) ∧
    (Loki.collectLoop 10 true [((some 1 : Option Nat), 0)] 7 [5] =
      ([5], 7, [(some 1, 0)])) :=
  ⟨(batch_close_conditions 10 false).1 _,
   (batch_close_conditions 10 false).2.1 _,
   (batch_close_conditions 10 false).2.2.1 1 1000 [] (by omega),
   (batch_close_conditions 10 true).2.2.2 _ 7 [5] (Or.inl rfl)⟩

/-- C2 counterexample: with `batch_size = 10`, a schedule where one entry
arrives immediately and the queue then stays empty for the one second
get timeout makes the loop submit a batch of size 1 after only 1000
milliseconds — a non-full batch submitted before `maxWaitDuration`
(5000 ms) has elapsed since its first entry, contradicting the claim. -/
theorem batch_close_counterexample :
    Loki.roundSubmits 10 false [((some 0 : Option Nat), 0), (none, 1000)] = [[0]] ∧
    (Loki.collectLoop 10 false [((some 0 : Option Nat), 0), (none, 1000)] 0 []).2.1 = 1000 ∧
    (([0] : List Nat).length < 10 ∧ 1000 < 5000) := by
  refine ⟨by decide, by decide, by decide⟩

/-- C3 amended: a batch submitted by the steady-state dispatch loop always
satisfies `1 ≤ |entries| ≤ batch_size`, and no empty batch is ever handed
to the delivery client (both submission sites guard on non-emptiness and
`_send_to_loki` posts nothing for an empty list); the final shutdown
flush also never submits an empty batch, but it submits all remaining
queued entries as one single batch, which is not bounded by
`batch_size`. -/
theorem submitted_batch_bounds {α : Type} (bs : Nat) (sh : Bool)
    (sched : List (Loki.GetResult α)) (q : List α) :
    (∀ b ∈ Loki.roundSubmits bs sh sched, 1 ≤ b.length ∧ b.length ≤ bs) ∧
    (∀ b ∈ Loki.flushSubmits q, 1 ≤ b.length) ∧
    (∀ t, (Loki.sendToLoki ([] : List α) t).2 = 0) := by
  refine ⟨?_, ?_, ?_⟩
  · intro b hb
    simp only [Loki.roundSubmits] at hb
    split at hb
    · simp at hb
    · next hne =>
      rcases List.mem_singleton.mp hb with rfl
      constructor
      · have : ¬(Loki.collectLoop bs sh sched 0 []).1.isEmpty = true := by
          simp [hne]
        rw [List.isEmpty_iff] at this
        have := List.length_pos.mpr this
        omega
      · exact Loki.collectLoop_length_le bs sh sched 0 [] (by simp)
  · intro b hb
    simp only [Loki.flushSubmits] at hb
    split at hb
    · simp at hb
    · next hne =>
      rcases List.mem_singleton.mp hb with rfl
      have : ¬(Loki.drainQueue q).isEmpty = true := by simp [hne]
      rw [List.isEmpty_iff] at this
      have := List.length_pos.mpr this
      omega
  · intro t
    simp [Loki.sendToLoki]

theorem submitted_batch_bounds_witness :
    (1 ≤ ([5] : List Nat).length ∧ ([5] : List Nat).length ≤ 10) ∧
    (1 ≤ ([7] : List Nat).length) ∧
    ((Loki.sendToLoki ([] : List Nat) .connError).2 = 0) :=
  ⟨(submitted_batch_bounds 10 false [((some 5 : Option Nat), 0)] [7]).1 [5] (by decide),
   (submitted_batch_bounds 10 false [((some 5 : Option Nat), 0)] [7]).2.1 [7] (by decide),
   (submitted_batch_bounds 10 false [((some 5 : Option Nat), 0)] ([7] : List Nat)).2.2
     .connError⟩

/-- C3 counterexample: with eleven entries left in the queue at shutdown
and the default `batch_size = 10`, `_flush_remaining_logs` submits one
single batch of all eleven entries, exceeding `maxBatchSize`. -/
theorem flush_batch_exceeds_bound :
    Loki.flushSubmits (List.range 11) = [List.range 11] ∧
    10 < (List.range 11).length := by
  refine ⟨by decide, by decide⟩

/-- C6 amended: when the events are already queued back-to-back (every
get returns immediately), N events are submitted in exactly
`ceil(N / batch_size)` batches, each non-empty, of at most `batch_size`
entries, preserving emission order with no event duplicated or dropped;
in particular 25 queued events with `batch_size = 10` yield exactly the
three batches of sizes 10, 10, 5 in order.  (With mere inter-event gaps
below `maxWaitDuration` this does not hold: see the counterexample.) -/
theorem dispatch_batching_chunks {α : Type} (bs : Nat) (hbs : 0 < bs) (q : List α) :
    ((Loki.dispatchRun bs q.length (Loki.instSched q)).flatten = q ∧
     (∀ b ∈ Loki.dispatchRun bs q.length (Loki.instSched q),
       b ≠ [] ∧ b.length ≤ bs) ∧
     (Loki.dispatchRun bs q.length (Loki.instSched q)).length =
       (q.length + (bs - 1)) / bs) ∧
    (Loki.dispatchRun 10 25 (Loki.instSched (List.range 25))).map List.length =
      [10, 10, 5] := by
  constructor
  · obtain ⟨k, rfl⟩ : ∃ k, bs = k + 1 := ⟨bs - 1, by omega⟩
    rw [Loki.dispatchRun_inst k q.length q le_rfl]
    refine ⟨Loki.chunkPos_flatten k q, ?_, ?_⟩
    · intro b hb
      exact Loki.chunkPos_mem k q b hb
    · rw [Loki.chunkPos_count k q]
      congr 1
  · decide

theorem dispatch_batching_chunks_witness :
    (0 < 10) ∧
    (((Loki.dispatchRun 10 (List.range 25).length
          (Loki.instSched (List.range 25))).flatten = List.range 25 ∧
      (∀ b ∈ Loki.dispatchRun 10 (List.range 25).length
          (Loki.instSched (List.range 25)), b ≠ [] ∧ b.length ≤ 10) ∧
      (Loki.dispatchRun 10 (List.range 25).length
          (Loki.instSched (List.range 25))).length =
        ((List.range 25).length + (10 - 1)) / 10) ∧
    (Loki.dispatchRun 10 25 (Loki.instSched (List.range 25))).map List.length =
      [10, 10, 5]) :=
  ⟨by decide, dispatch_batching_chunks 10 (by decide) (List.range 25)⟩

/-- C6 counterexample: eleven events (more than `batch_size = 10`)
enqueued with two second gaps — each gap far below `maxWaitDuration` of
five seconds — are submitted as eleven singleton batches, not as
`ceil(11 / 10) = 2` batches: the one second get timeout closes a batch at
every gap, so enqueueing merely faster than `maxWaitDuration` does not
produce `ceil(N / maxBatchSize)` batches. -/
theorem dispatch_gap_schedule_counterexample :
    (∀ p ∈ Loki.gapSched, p.2 < 5000) ∧
    (Loki.dispatchRun 10 22 Loki.gapSched).length = 11 ∧
    (Loki.dispatchRun 10 22 Loki.gapSched).map List.length =
      List.replicate 11 1 ∧
    (11 + (10 - 1)) / 10 = 2 := by
  refine ⟨by decide, by decide, by decide, by decide⟩

lemma char_toNat_ofNat_valid {n : Nat} (h : n.isValidChar) :
    (Char.ofNat n).toNat = n := by
  rw [Char.ofNat, dif_pos h]
  rfl

lemma char_eq_iff_toNat {a b : Char} : a = b ↔ a.toNat = b.toNat := by
  constructor
  · rintro rfl; rfl
  · intro h
    exact Char.ext (UInt32.ext h)

namespace Validators

lemma pyToLower_toNat (c : Char) :
    (Loki.pyToLower c).toNat =
      if 65 ≤ c.toNat ∧ c.toNat ≤ 90 then c.toNat + 32 else c.toNat := by
  unfold Loki.pyToLower
  split
  · rw [char_toNat_ofNat_valid]
    exact Or.inl (by omega)
  · rfl

lemma isPySpace_pyToLower (c : Char) :
    isPySpace (Loki.pyToLower c) = isPySpace c := by
  unfold isPySpace
  rw [pyToLower_toNat]
  split
  · next h =>
    simp only [decide_eq_decide]
    omega
  · rfl

lemma isCtrlChar_pyToLower (c : Char) :
    isCtrlChar (Loki.pyToLower c) = isCtrlChar c := by
  unfold isCtrlChar
  rw [pyToLower_toNat]
  split
  · next h =>
    simp only [decide_eq_decide]
    omega
  · rfl

lemma pyToLower_eq_space_iff (c : Char) : Loki.pyToLower c = ' ' ↔ c = ' ' := by
  rw [char_eq_iff_toNat, char_eq_iff_toNat, pyToLower_toNat]
  have hs : (' ' : Char).toNat = 32 := rfl
  rw [hs]
  split <;> omega

lemma pyToLower_space : Loki.pyToLower ' ' = ' ' :=
  (pyToLower_eq_space_iff ' ').mpr rfl

end Validators

namespace Validators

lemma squeeze_cons2 (c c2 : Char) (cs : List Char) :
    squeezeSpaces (c :: c2 :: cs) =
      if c = ' ' ∧ c2 = ' ' then squeezeSpaces (c2 :: cs)
      else c :: squeezeSpaces (c2 :: cs) := rfl

lemma squeeze_length : ∀ l : List Char, (squeezeSpaces l).length ≤ l.length
  | [] => le_rfl
  | [c] => le_rfl
  | c :: c2 :: cs => by
    rw [squeeze_cons2]
    have ih := squeeze_length (c2 :: cs)
    split
    · simp only [List.length_cons] at *
      omega
    · simp only [List.length_cons] at *
      omega

lemma squeeze_mem : ∀ (l : List Char) (c : Char), c ∈ squeezeSpaces l → c ∈ l
  | [], c, h => h
  | [_], c, h => h
  | a :: a2 :: cs, c, h => by
    rw [squeeze_cons2] at h
    split at h
    · exact List.mem_cons_of_mem a (squeeze_mem (a2 :: cs) c h)
    · rcases List.mem_cons.mp h with rfl | h
      · exact List.mem_cons_self _ _
      · exact List.mem_cons_of_mem a (squeeze_mem (a2 :: cs) c h)

lemma squeeze_map_comm (f : Char → Char) (hf : f ' ' = ' ')
    (hf2 : ∀ c, f c = ' ' → c = ' ') :
    ∀ l : List Char, squeezeSpaces (l.map f) = (squeezeSpaces l).map f
  | [] => rfl
  | [c] => rfl
  | c :: c2 :: cs => by
    have hiff : ∀ a : Char, f a = ' ' ↔ a = ' ' := by
      intro a
      constructor
      · exact hf2 a
      · rintro rfl; exact hf
    simp only [List.map_cons]
    rw [squeeze_cons2, squeeze_cons2]
    by_cases h : c = ' ' ∧ c2 = ' '
    · rw [if_pos ⟨(hiff c).mpr h.1, (hiff c2).mpr h.2⟩, if_pos h]
      have := squeeze_map_comm f hf hf2 (c2 :: cs)
      simpa using this
    · have hn : ¬(f c = ' ' ∧ f c2 = ' ') := by
        intro hc
        exact h ⟨(hiff c).mp hc.1, (hiff c2).mp hc.2⟩
      rw [if_neg hn, if_neg h]
      have := squeeze_map_comm f hf hf2 (c2 :: cs)
      simp only [List.map_cons] at this ⊢
      rw [this]

lemma prefix_of_squeeze :
    ∀ (l d : List Char), (∀ c ∈ d, c ≠ ' ') → d <+: squeezeSpaces l → d <+: l
  | [], d, _, hp => hp
  | [c], d, _, hp => hp
  | c :: c2 :: cs, d, hd, hp => by
    rw [squeeze_cons2] at hp
    by_cases h : c = ' ' ∧ c2 = ' '
    · rw [if_pos h] at hp
      have ih := prefix_of_squeeze (c2 :: cs) d hd hp
      rcases List.prefix_cons_iff.mp ih with h0 | ⟨t, rfl, _⟩
      · subst h0
        exact List.nil_prefix
      · exact absurd h.2 (hd c2 (List.mem_cons_self _ _))
    · rw [if_neg h] at hp
      rcases List.prefix_cons_iff.mp hp with h0 | ⟨t, rfl, ht⟩
      · subst h0
        exact List.nil_prefix
      · have ih := prefix_of_squeeze (c2 :: cs) t
          (fun x hx => hd x (List.mem_cons_of_mem _ hx)) ht
        exact List.cons_prefix_cons.mpr ⟨rfl, ih⟩

lemma infix_of_squeeze :
    ∀ (l d : List Char), (∀ c ∈ d, c ≠ ' ') → d <:+: squeezeSpaces l → d <:+: l
  | [], d, _, hp => hp
  | [c], d, _, hp => hp
  | c :: c2 :: cs, d, hd, hp => by
    rw [squeeze_cons2] at hp
    by_cases h : c = ' ' ∧ c2 = ' '
    · rw [if_pos h] at hp
      exact List.infix_cons (infix_of_squeeze (c2 :: cs) d hd hp)
    · rw [if_neg h] at hp
      rcases List.infix_cons_iff.mp hp with hpre | hinf
      · rcases List.prefix_cons_iff.mp hpre with h0 | ⟨t, rfl, ht⟩
        · subst h0
          exact List.nil_infix
        · have ih := prefix_of_squeeze (c2 :: cs) t
            (fun x hx => hd x (List.mem_cons_of_mem _ hx)) ht
          exact (List.cons_prefix_cons.mpr ⟨rfl, ih⟩).isInfix
      · exact List.infix_cons (infix_of_squeeze (c2 :: cs) d hd hinf)

end Validators

namespace Validators

lemma infix_dropWhile_of {p : Char → Bool} :
    ∀ l d : List Char, d <:+: l → (∀ c ∈ d, p c = false) →
      d <:+: l.dropWhile p
  | [], d, h, _ => by simpa using h
  | c :: cs, d, h, hd => by
    rw [List.dropWhile_cons]
    by_cases hp : p c = true
    · rw [if_pos hp]
      rcases List.infix_cons_iff.mp h with hpre | hinf
      · rcases List.prefix_cons_iff.mp hpre with h0 | ⟨t, rfl, _⟩
        · subst h0
          exact List.nil_infix
        · exact absurd (hd c (List.mem_cons_self _ _)) (by simp [hp])
      · exact infix_dropWhile_of cs d hinf hd
    · rw [if_neg hp]
      exact h

lemma infix_pyStrip_of {d l : List Char} (h : d <:+: l)
    (hd : ∀ c ∈ d, isPySpace c = false) : d <:+: pyStrip l := by
  unfold pyStrip
  have h1 : d <:+: l.dropWhile isPySpace := infix_dropWhile_of l d h hd
  have h2 : d.reverse <:+: (l.dropWhile isPySpace).reverse :=
    List.reverse_infix.mpr h1
  have h3 : d.reverse <:+: (l.dropWhile isPySpace).reverse.dropWhile isPySpace :=
    infix_dropWhile_of _ _ h2 (fun c hc => hd c (List.mem_reverse.mp hc))
  have h4 := List.reverse_infix.mpr h3
  simpa using h4

lemma infix_filter_of {p : Char → Bool} {d l : List Char} (h : d <:+: l)
    (hd : ∀ c ∈ d, p c = true) : d <:+: l.filter p := by
  obtain ⟨s, t, rfl⟩ := h
  refine ⟨s.filter p, t.filter p, ?_⟩
  rw [List.filter_append, List.filter_append, List.filter_eq_self.mpr hd]

lemma infix_of_infix_map {f : Char → Char} {d l : List Char}
    (h : d <:+: l.map f) (hf : ∀ x, f x ∈ d → f x = x) : d <:+: l := by
  obtain ⟨s, t, hst⟩ := h
  have hmap : l.map f = s ++ (d ++ t) := by
    rw [← hst, List.append_assoc]
  obtain ⟨l₁, l₂, rfl, hl₁, hl₂⟩ := List.map_eq_append_iff.mp hmap
  obtain ⟨l₃, l₄, rfl, hl₃, hl₄⟩ := List.map_eq_append_iff.mp hl₂
  have hfix : ∀ x ∈ l₃, f x = x := by
    intro x hx
    exact hf x (by rw [← hl₃]; exact List.mem_map_of_mem f hx)
  have hl₃' : l₃ = d := by
    rw [← hl₃, List.map_congr_left hfix]
    simp
  refine ⟨l₁, l₄, ?_⟩
  rw [← hl₃', List.append_assoc]

lemma mapWs_map_pyToLower (l : List Char) :
    mapWs (l.map Loki.pyToLower) = (mapWs l).map Loki.pyToLower := by
  unfold mapWs
  rw [List.map_map, List.map_map]
  apply List.map_congr_left
  intro c _
  simp only [Function.comp_apply]
  by_cases h : isPySpace c = true
  · rw [if_pos h, if_pos (by rw [isPySpace_pyToLower]; exact h), pyToLower_space]
  · rw [if_neg h, if_neg (by rw [isPySpace_pyToLower]; exact h)]

lemma removeCtrl_map_pyToLower (l : List Char) :
    removeCtrl (l.map Loki.pyToLower) = (removeCtrl l).map Loki.pyToLower := by
  unfold removeCtrl
  rw [List.filter_map]
  congr 1
  apply List.filter_congr
  intro c _
  simp only [Function.comp_apply, isCtrlChar_pyToLower]

lemma pyStrip_map_pyToLower (l : List Char) :
    pyStrip (l.map Loki.pyToLower) = (pyStrip l).map Loki.pyToLower := by
  unfold pyStrip
  have hcomp : (isPySpace ∘ Loki.pyToLower) = isPySpace :=
    funext isPySpace_pyToLower
  rw [List.dropWhile_map, hcomp, ← List.map_reverse, List.dropWhile_map,
    hcomp, ← List.map_reverse]

lemma collapseWs_map_pyToLower (l : List Char) :
    (collapseWs l).map Loki.pyToLower = collapseWs (l.map Loki.pyToLower) := by
  unfold collapseWs
  rw [mapWs_map_pyToLower]
  rw [squeeze_map_comm Loki.pyToLower pyToLower_space
    (fun c hc => (pyToLower_eq_space_iff c).mp hc)]

lemma dangerous_clean :
    ∀ d ∈ DANGEROUS_CHARS, d ≠ [] ∧
      ∀ c ∈ d, isPySpace c = false ∧ isCtrlChar c = false ∧ c ≠ ' ' := by
  decide

end Validators

namespace Validators

lemma sanitize_eq_ok_iff (term : List Char) (maxLength : Nat) (out : List Char) :
    sanitize_search_term term maxLength = .ok out ↔
      term.isEmpty = false ∧ 2 ≤ (pyStrip term).length ∧
      (pyStrip term).length ≤ maxLength ∧
      containsDangerous ((removeCtrl (pyStrip term)).map Loki.pyToLower) = false ∧
      out = collapseWs (removeCtrl (pyStrip term)) := by
  unfold sanitize_search_term
  by_cases h0 : term.isEmpty
  · simp [h0]
  · simp only [h0, Bool.false_eq_true, if_false]
    by_cases h1 : (pyStrip term).length < 2
    · simp [h1]
    · simp only [h1, if_false]
      by_cases h2 : maxLength < (pyStrip term).length
      · simp [h2]
      · simp only [h2, if_false]
        by_cases h3 :
            containsDangerous ((removeCtrl (pyStrip term)).map Loki.pyToLower)
        · simp [h3]
        · simp only [h3, Bool.false_eq_true, if_false, Except.ok.injEq]
          constructor
          · intro h
            refine ⟨trivial, by omega, by omega, trivial, h.symm⟩
          · rintro ⟨-, -, -, -, rfl⟩
            rfl

end Validators

/-- C10 amended: whenever `sanitize_search_term` returns normally, the
returned string, lowercased, contains none of the `DANGEROUS_CHARS`
substrings, contains no control character (U+0000-U+001F,
U+007F-U+009F) and has length at most `max_length` (default 100); it
raises `BadRequestError` for inputs that are empty, shorter than 2
characters after stripping, longer than `max_length` after stripping, or
containing a dangerous substring. -/
theorem sanitize_search_term_spec (term : List Char) (maxLength : Nat) :
    (∀ out, Validators.sanitize_search_term term maxLength = .ok out →
      (∀ d ∈ Validators.DANGEROUS_CHARS,
        ¬ d <:+: out.map Loki.pyToLower) ∧
      (∀ c ∈ out, Validators.isCtrlChar c = false) ∧
      out.length ≤ maxLength) ∧
    ((term = [] ∨ (Validators.pyStrip term).length < 2 ∨
        maxLength < (Validators.pyStrip term).length ∨
        ∃ d ∈ Validators.DANGEROUS_CHARS, d <:+: term.map Loki.pyToLower) →
      ∃ msg, Validators.sanitize_search_term term maxLength = .error msg) := by
  constructor
  · intro out hok
    obtain ⟨h0, h1, h2, h3, rfl⟩ :=
      (Validators.sanitize_eq_ok_iff term maxLength out).mp hok
    set t1 := Validators.pyStrip term with ht1
    set t2 := Validators.removeCtrl t1 with ht2
    refine ⟨?_, ?_, ?_⟩
    · intro d hd hinf
      obtain ⟨hne, hclean⟩ := Validators.dangerous_clean d hd
      rw [Validators.collapseWs_map_pyToLower] at hinf
      unfold Validators.collapseWs at hinf
      have hmw := Validators.infix_of_squeeze _ d
        (fun c hc => (hclean c hc).2.2) hinf
      have hmap : Validators.mapWs (t2.map Loki.pyToLower) =
          (t2.map Loki.pyToLower).map
            (fun c => if Validators.isPySpace c then ' ' else c) := rfl
      rw [hmap] at hmw
      have hd2 : d <:+: t2.map Loki.pyToLower := by
        refine Validators.infix_of_infix_map hmw ?_
        intro x hx
        by_cases hs : Validators.isPySpace x = true
        · rw [if_pos hs] at hx ⊢
          exact absurd rfl ((hclean ' ' hx).2.2)
        · rw [if_neg hs]
      have : Validators.containsDangerous (t2.map Loki.pyToLower) = true := by
        simp only [Validators.containsDangerous, List.any_eq_true]
        exact ⟨d, hd, by simp only [Validators.substrIn]; exact decide_eq_true hd2⟩
      rw [this] at h3
      cases h3
    · intro c hc
      have hc2 := Validators.squeeze_mem _ c hc
      unfold Validators.mapWs at hc2
      obtain ⟨x, hx, hfx⟩ := List.mem_map.mp hc2
      by_cases hs : Validators.isPySpace x = true
      · rw [if_pos hs] at hfx
        rw [← hfx]
        decide
      · rw [if_neg hs] at hfx
        subst hfx
        have := List.of_mem_filter (p := fun c => !Validators.isCtrlChar c) hx
        simpa using this
    · have l1 := Validators.squeeze_length (Validators.mapWs t2)
      have l2 : (Validators.mapWs t2).length = t2.length := by
        unfold Validators.mapWs
        exact List.length_map _ _
      have l3 : t2.length ≤ t1.length := List.length_filter_le _ _
      unfold Validators.collapseWs
      omega
  · intro hcase
    cases hx : Validators.sanitize_search_term term maxLength with
    | error m => exact ⟨m, rfl⟩
    | ok out =>
      obtain ⟨h0, h1, h2, h3, -⟩ :=
        (Validators.sanitize_eq_ok_iff term maxLength out).mp hx
      rcases hcase with hc | hc | hc | ⟨d, hdm, hdi⟩
      · subst hc
        simp at h0
      · omega
      · omega
      · obtain ⟨hne, hclean⟩ := Validators.dangerous_clean d hdm
        have step1 : d <:+: Validators.pyStrip (term.map Loki.pyToLower) :=
          Validators.infix_pyStrip_of hdi (fun c hc => (hclean c hc).1)
        rw [Validators.pyStrip_map_pyToLower] at step1
        have step2 : d <:+:
            Validators.removeCtrl
              ((Validators.pyStrip term).map Loki.pyToLower) := by
          unfold Validators.removeCtrl
          exact Validators.infix_filter_of step1
            (fun c hc => by simp [(hclean c hc).2.1])
        rw [Validators.removeCtrl_map_pyToLower] at step2
        have : Validators.containsDangerous
            ((Validators.removeCtrl (Validators.pyStrip term)).map
              Loki.pyToLower) = true := by
          simp only [Validators.containsDangerous, List.any_eq_true]
          exact ⟨d, hdm, by
            simp only [Validators.substrIn]
            exact decide_eq_true step2⟩
        rw [this] at h3
        cases h3

theorem sanitize_search_term_spec_witness :
    ((∀ d ∈ Validators.DANGEROUS_CHARS,
        ¬ d <:+: ("valid".data : List Char).map Loki.pyToLower) ∧
      (∀ c ∈ ("valid".data : List Char), Validators.isCtrlChar c = false) ∧
      ("valid".data : List Char).length ≤ 100) ∧
    (∃ msg, Validators.sanitize_search_term "a".data 100 = .error msg) :=
  ⟨(sanitize_search_term_spec "valid".data 100).1 "valid".data rfl,
   (sanitize_search_term_spec "a".data 100).2 (Or.inr (Or.inl (by decide)))⟩

/-- C10 counterexample: the length guard runs after `term.strip()`, so an
input of raw length 101 (over the 100 maximum) whose stripped form is
just two characters is accepted and returned, not rejected: the claim
that every input longer than `max_length` raises `BadRequestError` is
false. -/
theorem sanitize_long_input_counterexample :
    ("ab".data ++ List.replicate 99 ' ').length = 101 ∧ 100 < 101 ∧
    Validators.sanitize_search_term ("ab".data ++ List.replicate 99 ' ') 100 =
      .ok "ab".data := by
  refine ⟨by decide, by decide, by rfl⟩
